import Mathlib

set_option maxHeartbeats 1000000

/-! Shallow embedding of the inference-and-aggregation engine of
src/src/App.tsx (the NYC air-quality dashboard).  JavaScript finite
numbers are modelled as rationals; the JavaScript builtins used by the
engine (Number on strings, Date.parse, Date.toISOString day truncation,
number formatting) are parameters collected in a JsEnv structure. -/

/-- A JavaScript runtime value as seen by the engine: a finite number,
a non-finite number (NaN or an infinity, for which Number.isFinite is
false), a string, or anything else (null, undefined, booleans, objects,
absent fields). -/
inductive JsVal where
  | num (q : ℚ)
  | nonfinite
  | str (s : String)
  | other
deriving DecidableEq, Repr

/-- A row: a flat record mapping column names to values.  An absent key
reads as JsVal.other (undefined). -/
abbrev Row := List (String × JsVal)

/-- Property access r[k]: the stored value, or undefined when absent. -/
def getVal (r : Row) (k : String) : JsVal :=
  match r.lookup k with
  | some v => v
  | none => .other

/-- App.tsx isString: typeof value === string. -/
def isString : JsVal → Bool
  | .str _ => true
  | _ => false

/-- App.tsx isNumber: typeof value === number AND Number.isFinite(value). -/
def isNumber : JsVal → Bool
  | .num _ => true
  | _ => false

/-- The JavaScript builtins the engine relies on.
parseNum s models Number(s) followed by the Number.isFinite test: some q
when Number(s) is the finite number q, none when Number(s) is NaN or an
infinity.  parseDate s models Date.parse(s): some t (milliseconds) on
success, none when the result is NaN.  toDay t models
new Date(t).toISOString().slice(0, 10).  toFixed and toLocale model the
number-formatting builtins used by formatValue. -/
structure JsEnv where
  parseNum : String → Option ℚ
  parseDate : String → Option Int
  toDay : Int → String
  toFixed : ℚ → Nat → String
  toLocale : ℚ → String
  toLower : String → String
  trim : String → String

/-- App.tsx coerceNumber (lines 31-38): a finite number is returned as
is; a string goes through Number() and is kept only when finite; every
other value yields undefined. -/
def coerceNumber (env : JsEnv) (value : JsVal) : Option ℚ :=
  match value with
  | .num q => some q
  | .str s => env.parseNum s
  | _ => none

/-! ### Schema Selector: the default-selection effect (App.tsx 161-183) -/

/-- The three selection slots (group, metric, date column). -/
structure Selections where
  groupKey : Option String
  metricKey : Option String
  dateKey : Option String
deriving DecidableEq, Repr

/-- JavaScript truthiness of a string-or-undefined value: undefined and
the empty string are falsy. -/
def truthy : Option String → Bool
  | some s => s ≠ ""
  | none => false

/-- JavaScript a || b on string-or-undefined values. -/
def jsOr (a b : Option String) : Option String :=
  if truthy a then a else b

def groupCandidates : List String :=
  ["geo_id_name", "geoid_name", "geo_name", "borough", "neighborhood",
   "community_district"]

def metricCandidates : List String :=
  ["air_quality_index", "aqi", "pm25", "pm_2_5", "no2", "ozone", "so2",
   "value", "score"]

def dateCandidates : List String :=
  ["date", "measurement_date", "sample_date", "created_date", "time",
   "timestamp", "datetime"]

/-- The setGroupKey updater: keep a truthy previous value, else the
first string column whose lowercase name is a preferred candidate, else
the first string column. -/
def resolveGroupKey (env : JsEnv) (stringColumns : List String)
    (prev : Option String) : Option String :=
  if truthy prev then prev
  else
    jsOr (stringColumns.find? (fun c => groupCandidates.contains (env.toLower c)))
      stringColumns.head?

/-- The setMetricKey updater. -/
def resolveMetricKey (env : JsEnv) (numericColumns : List String)
    (prev : Option String) : Option String :=
  if truthy prev then prev
  else
    jsOr (numericColumns.find? (fun c => metricCandidates.contains (env.toLower c)))
      numericColumns.head?

/-- The setDateKey updater. -/
def resolveDateKey (env : JsEnv) (dateColumns : List String)
    (prev : Option String) : Option String :=
  if truthy prev then prev
  else
    jsOr (dateColumns.find? (fun c => dateCandidates.contains (env.toLower c)))
      dateColumns.head?

/-- One run of the default-selection effect: a no-op while no rows have
loaded, otherwise each slot is resolved by its updater. -/
def applyDefaults (env : JsEnv) (rowCount : Nat)
    (stringColumns numericColumns dateColumns : List String)
    (st : Selections) : Selections :=
  if rowCount = 0 then st
  else
    { groupKey := resolveGroupKey env stringColumns st.groupKey,
      metricKey := resolveMetricKey env numericColumns st.metricKey,
      dateKey := resolveDateKey env dateColumns st.dateKey }

/-- A concrete environment used to evaluate theorems on small inputs:
every builtin returns a fixed default and lowercasing is the identity. -/
def idEnv : JsEnv where
  parseNum := fun _ => none
  parseDate := fun _ => none
  toDay := fun _ => ""
  toFixed := fun _ _ => ""
  toLocale := fun _ => ""
  toLower := fun s => s
  trim := fun s => s

/-! ### Claim C3: the shared numeric coercion -/

/-- C3: coerceNumber yields a finite number exactly for values that are
already finite numbers or strings whose standard numeric parse is
finite; every other value (non-numeric strings, non-finite numbers,
non-string non-number values) yields no number. -/
theorem coerceNumber_spec (env : JsEnv) (v : JsVal) :
    (∀ n : ℚ, coerceNumber env v = some n ↔
      (v = .num n ∨ ∃ s, v = .str s ∧ env.parseNum s = some n)) ∧
    (coerceNumber env v = none ↔
      ((∀ q : ℚ, v ≠ .num q) ∧ ∀ s, v = .str s → env.parseNum s = none)) := by
  cases v with
  | num q => simp [coerceNumber]
  | nonfinite => simp [coerceNumber]
  | str s =>
    constructor
    · intro n; simp [coerceNumber]
    · simp [coerceNumber]
  | other => simp [coerceNumber]

/-! ### Claim C8: idempotent default initialization -/

/-- C8 as stated is false: a slot holding the empty string holds a
value, yet the resolver treats it as unset (JavaScript truthiness) and
re-defaults it. -/
theorem applyDefaults_empty_string_counterexample :
    (Selections.mk (some "") none none).groupKey = some "" ∧
    (applyDefaults idEnv 1 ["a"] [] [] (Selections.mk (some "") none none)).groupKey
      = some "a" := by
  constructor
  · rfl
  · decide

/-- C8 (amended): once a slot holds a non-empty value, any further
default-resolution pass, with arbitrary classified column lists and row
count, leaves that slot unchanged; defaults are applied only to slots
still unset (or holding the falsy empty string). -/
theorem applyDefaults_idempotent (env : JsEnv) (rowCount : Nat)
    (sc nc dc : List String) (st : Selections) :
    (∀ g, st.groupKey = some g → g ≠ "" →
      (applyDefaults env rowCount sc nc dc st).groupKey = some g) ∧
    (∀ m, st.metricKey = some m → m ≠ "" →
      (applyDefaults env rowCount sc nc dc st).metricKey = some m) ∧
    (∀ d, st.dateKey = some d → d ≠ "" →
      (applyDefaults env rowCount sc nc dc st).dateKey = some d) := by
  unfold applyDefaults
  by_cases h : rowCount = 0
  · simp only [h, if_true, reduceIte]
    exact ⟨fun g hg _ => hg, fun m hm _ => hm, fun d hd _ => hd⟩
  · simp only [h, if_false]
    refine ⟨?_, ?_, ?_⟩
    · intro g hg hne
      simp [resolveGroupKey, truthy, hg, hne]
    · intro m hm hne
      simp [resolveMetricKey, truthy, hm, hne]
    · intro d hd hne
      simp [resolveDateKey, truthy, hd, hne]

/-- Concrete instance of the amended C8 theorem. -/
theorem applyDefaults_idempotent_witness :
    (applyDefaults idEnv 1 ["a"] ["b"] ["c"]
      (Selections.mk (some "x") (some "y") (some "z"))).groupKey = some "x" ∧
    (applyDefaults idEnv 1 ["a"] ["b"] ["c"]
      (Selections.mk (some "x") (some "y") (some "z"))).metricKey = some "y" ∧
    (applyDefaults idEnv 1 ["a"] ["b"] ["c"]
      (Selections.mk (some "x") (some "y") (some "z"))).dateKey = some "z" := by
  have h := applyDefaults_idempotent idEnv 1 ["a"] ["b"] ["c"]
    (Selections.mk (some "x") (some "y") (some "z"))
  exact ⟨h.1 "x" rfl (by decide), h.2.1 "y" rfl (by decide),
    h.2.2 "z" rfl (by decide)⟩

/-! ### Time-series points and the 7-day moving average (App.tsx 267-283) -/

/-- A daily time-series point: date in canonical day form, metric value. -/
structure TSPoint where
  date : String
  value : ℚ
deriving DecidableEq, Repr

/-- A time-series point augmented with the optional moving average. -/
structure TSPointMA where
  date : String
  value : ℚ
  ma : Option ℚ
deriving DecidableEq, Repr

/-- One iteration of the moving-average loop: add the value at index i
to the running sum, subtract the value falling out of the 7-wide window,
and append the average (or undefined for the first six indices). -/
def maStep (vals : List ℚ) (st : ℚ × List (Option ℚ)) (i : Nat) :
    ℚ × List (Option ℚ) :=
  let run1 := st.1 + vals.getD i 0
  let run2 := if 7 ≤ i then run1 - vals.getD (i - 7) 0 else run1
  (run2, st.2 ++ [if 6 ≤ i then some (run2 / 7) else none])

/-- Loop state after the first n iterations of the for loop. -/
def maState (vals : List ℚ) (n : Nat) : ℚ × List (Option ℚ) :=
  (List.range n).foldl (maStep vals) (0, [])

/-- The ma array of App.tsx: sliding running-sum accumulator over the
whole value sequence. -/
def movingAverages (vals : List ℚ) : List (Option ℚ) :=
  (maState vals vals.length).2

/-- App.tsx timeSeriesWithMA: each time-series point spread together
with its moving-average entry. -/
def timeSeriesWithMA (ts : List TSPoint) : List TSPointMA :=
  if ts.length = 0 then []
  else
    let vals := ts.map fun d => d.value
    let ma := movingAverages vals
    ts.enum.map fun p =>
      { date := p.2.date, value := p.2.value, ma := ma.getD p.1 none }

/-- Sum of the length-many values starting at index lo. -/
def sliceSum (vals : List ℚ) (lo len : Nat) : ℚ :=
  ((vals.drop lo).take len).sum

theorem sliceSum_succ (vals : List ℚ) (lo len : Nat)
    (h : lo + len < vals.length) :
    sliceSum vals lo (len + 1) = sliceSum vals lo len + vals.getD (lo + len) 0 := by
  unfold sliceSum
  rw [List.take_succ, List.sum_append]
  have hd : (vals.drop lo)[len]? = some vals[lo + len] := by
    rw [List.getElem?_drop]
    exact List.getElem?_eq_getElem h
  rw [hd, List.getD_eq_getElem vals 0 h]
  simp

theorem sliceSum_shift (vals : List ℚ) (lo len : Nat) (h : lo < vals.length) :
    sliceSum vals lo (len + 1) = vals.getD lo 0 + sliceSum vals (lo + 1) len := by
  unfold sliceSum
  rw [List.drop_eq_getElem_cons h, List.take_succ_cons, List.sum_cons,
    List.getD_eq_getElem vals 0 h]

theorem maState_succ (vals : List ℚ) (n : Nat) :
    maState vals (n + 1) = maStep vals (maState vals n) n := by
  unfold maState
  rw [List.range_succ, List.foldl_append]
  rfl

/-- Loop invariant of the moving-average pass: after n iterations the
running sum holds the sum of the up-to-7 most recent processed values,
the output has one entry per processed index, and entry i is undefined
for i below 6 and the window average for i at least 6. -/
theorem maState_spec (vals : List ℚ) : ∀ n, n ≤ vals.length →
    (maState vals n).1 = sliceSum vals (n - 7) (min n 7) ∧
    (maState vals n).2.length = n ∧
    (∀ i, i < n → (maState vals n).2.getD i none =
      if 6 ≤ i then some (sliceSum vals (i - 6) 7 / 7) else none) := by
  intro n
  induction n with
  | zero =>
    intro _
    refine ⟨?_, rfl, fun i hi => absurd hi (by omega)⟩
    simp [maState, sliceSum]
  | succ n ih =>
    intro hn
    have hnlt : n < vals.length := by omega
    obtain ⟨ihrun, ihlen, ihtab⟩ := ih (by omega)
    rw [maState_succ]
    have hrun2 : (maStep vals (maState vals n) n).1 =
        sliceSum vals (n + 1 - 7) (min (n + 1) 7) := by
      unfold maStep
      by_cases h7 : 7 ≤ n
      · have e1 : n - 7 + 7 = n := by omega
        have e2 : min n 7 = 7 := by omega
        have e3 : n - 7 + 1 = n - 6 := by omega
        have e4 : n + 1 - 7 = n - 6 := by omega
        have e5 : min (n + 1) 7 = 7 := by omega
        have hs1 := sliceSum_succ vals (n - 7) 7 (by omega)
        have hs2 := sliceSum_shift vals (n - 7) 7 (by omega)
        rw [e1] at hs1
        rw [e3] at hs2
        simp only [h7, if_true, reduceIte, ihrun, e2, e4, e5]
        linarith [hs1, hs2]
      · have e1 : n - 7 = 0 := by omega
        have e2 : min n 7 = n := by omega
        have e3 : n + 1 - 7 = 0 := by omega
        have e4 : min (n + 1) 7 = n + 1 := by omega
        have hs1 := sliceSum_succ vals 0 n (by omega)
        simp only [h7, if_false, reduceIte, ihrun, e1, e2, e3, e4]
        rw [hs1]
        simp
    refine ⟨hrun2, ?_, ?_⟩
    · show ((maState vals n).2 ++ _).length = n + 1
      simp [ihlen]
    · intro i hi
      show ((maState vals n).2 ++
        [if 6 ≤ n then some ((maStep vals (maState vals n) n).1 / 7) else none]).getD i none = _
      by_cases hilt : i < n
      · rw [List.getD_append _ _ _ _ (by rw [ihlen]; exact hilt)]
        exact ihtab i hilt
      · have hieq : i = n := by omega
        subst hieq
        rw [List.getD_append_right _ _ _ _ (by rw [ihlen])]
        rw [ihlen]
        simp only [Nat.sub_self, List.getD_cons_zero]
        by_cases h6 : 6 ≤ i
        · have e4 : i + 1 - 7 = i - 6 := by omega
          have e5 : min (i + 1) 7 = 7 := by omega
          rw [hrun2, e4, e5]
        · simp [h6]

theorem movingAverages_spec (vals : List ℚ) :
    (movingAverages vals).length = vals.length ∧
    ∀ i, i < vals.length → (movingAverages vals).getD i none =
      if 6 ≤ i then some (sliceSum vals (i - 6) 7 / 7) else none := by
  obtain ⟨_, hlen, htab⟩ := maState_spec vals vals.length le_rfl
  exact ⟨hlen, htab⟩

theorem timeSeriesWithMA_eq (ts : List TSPoint) :
    timeSeriesWithMA ts = ts.enum.map fun p =>
      { date := p.2.date, value := p.2.value,
        ma := (movingAverages (ts.map fun d => d.value)).getD p.1 none } := by
  unfold timeSeriesWithMA
  by_cases h : ts.length = 0
  · rw [List.length_eq_zero] at h
    subst h
    rfl
  · simp [h]

theorem timeSeriesWithMA_window (ts : List TSPoint) (i : Nat)
    (hi : i < (timeSeriesWithMA ts).length) :
    (i < 6 → ((timeSeriesWithMA ts).get ⟨i, hi⟩).ma = none) ∧
    (6 ≤ i → ((timeSeriesWithMA ts).get ⟨i, hi⟩).ma =
      some ((((ts.map fun d => d.value).drop (i - 6)).take 7).sum / 7)) := by
  have hlen : (timeSeriesWithMA ts).length = ts.length := by
    rw [timeSeriesWithMA_eq]
    simp [List.enum_length]
  have hval : ((timeSeriesWithMA ts).get ⟨i, hi⟩).ma
      = (movingAverages (ts.map fun d => d.value)).getD i none := by
    simp [timeSeriesWithMA_eq, List.get_eq_getElem, List.getElem_map, List.getElem_enum]
  have hi3 : i < (ts.map fun d => d.value).length := by
    rw [List.length_map]
    omega
  have h := (movingAverages_spec (ts.map fun d => d.value)).2 i hi3
  constructor
  · intro h6
    rw [hval, h]
    simp [Nat.not_le.mpr h6]
  · intro h6
    rw [hval, h]
    simp [h6, sliceSum]

def ts8ex : List TSPoint :=
  [⟨"2024-01-01", 1⟩, ⟨"2024-01-02", 2⟩, ⟨"2024-01-03", 3⟩, ⟨"2024-01-04", 4⟩,
   ⟨"2024-01-05", 5⟩, ⟨"2024-01-06", 6⟩, ⟨"2024-01-07", 7⟩, ⟨"2024-01-08", 8⟩]

theorem timeSeriesWithMA_window_witness :
    (6 ≤ (6:Nat) ∧ ((timeSeriesWithMA ts8ex).get ⟨6, by decide⟩).ma = some 4) ∧
    (6 ≤ (7:Nat) ∧ ((timeSeriesWithMA ts8ex).get ⟨7, by decide⟩).ma = some 5) ∧
    ((0:Nat) < 6 ∧ ((timeSeriesWithMA ts8ex).get ⟨0, by decide⟩).ma = none) := by
  refine ⟨⟨by decide, ?_⟩, ⟨by decide, ?_⟩, ⟨by decide, ?_⟩⟩
  · have h := (timeSeriesWithMA_window ts8ex 6 (by decide)).2 (by decide)
    rw [h]
    norm_num [ts8ex]
  · have h := (timeSeriesWithMA_window ts8ex 7 (by decide)).2 (by decide)
    rw [h]
    norm_num [ts8ex]
  · exact (timeSeriesWithMA_window ts8ex 0 (by decide)).1 (by decide)

theorem timeSeriesWithMA_frame (ts : List TSPoint) :
    (timeSeriesWithMA ts).length = ts.length ∧
    ∀ i (h1 : i < (timeSeriesWithMA ts).length) (h2 : i < ts.length),
      ((timeSeriesWithMA ts).get ⟨i, h1⟩).date = (ts.get ⟨i, h2⟩).date ∧
      ((timeSeriesWithMA ts).get ⟨i, h1⟩).value = (ts.get ⟨i, h2⟩).value := by
  refine ⟨by simp [timeSeriesWithMA_eq, List.enum_length], ?_⟩
  intro i h1 h2
  constructor <;>
    simp [timeSeriesWithMA_eq, List.get_eq_getElem, List.getElem_map, List.getElem_enum]

theorem timeSeriesWithMA_frame_witness :
    ((timeSeriesWithMA ts8ex).get ⟨2, by decide⟩).date = (ts8ex.get ⟨2, by decide⟩).date ∧
    ((timeSeriesWithMA ts8ex).get ⟨2, by decide⟩).value = (ts8ex.get ⟨2, by decide⟩).value :=
  (timeSeriesWithMA_frame ts8ex).2 2 (by decide) (by decide)

/-! ### Time-series aggregator (App.tsx 244-265) -/

/-- Insertion-order-preserving map update with the semantics of a
JavaScript Map: setting an existing key overwrites its value in place,
a new key is appended at the end. -/
def mapSet {α : Type} (m : List (String × α)) (k : String) (v : α) :
    List (String × α) :=
  if m.any fun p => p.1 == k then
    m.map fun p => if p.1 == k then (k, v) else p
  else m ++ [(k, v)]

/-- The group filter of the trend chart: with a group column selected
and a specific (non-All) group value chosen, only rows whose group
column holds exactly that string pass. -/
def passesGroupFilter (groupKey : Option String) (selectedGroupValue : String)
    (r : Row) : Bool :=
  match groupKey with
  | some gk =>
    if selectedGroupValue ≠ "All" then
      match getVal r gk with
      | .str g => g == selectedGroupValue
      | _ => false
    else true
  | none => true

/-- One row's contribution to the daily series: the canonical day and
the metric value, provided the row passes the group filter, carries a
string date that parses, and a coercible metric value (the guard chain
of the timeSeries loop body). -/
def dayValue (env : JsEnv) (mk1 dk1 : String) (groupKey : Option String)
    (selectedGroupValue : String) (r : Row) : Option (String × ℚ) :=
  if passesGroupFilter groupKey selectedGroupValue r then
    match getVal r dk1 with
    | .str ds =>
      match env.parseDate ds with
      | some t =>
        match coerceNumber env (getVal r mk1) with
        | some n => some (env.toDay t, n)
        | none => none
      | none => none
    | _ => none
  else none

/-- One iteration of the timeSeries loop: record the contribution in
the per-day map (overwriting the day's previous value), or skip. -/
def timeSeriesStep (env : JsEnv) (mk1 dk1 : String) (gk : Option String)
    (sgv : String) (m : List (String × ℚ)) (r : Row) : List (String × ℚ) :=
  match dayValue env mk1 dk1 gk sgv r with
  | some (d, n) => mapSet m d n
  | none => m

/-- App.tsx timeSeries: build the per-day map (last write wins within a
day) and sort the entries ascending by day string. -/
def timeSeries (env : JsEnv) (filteredRows : List Row)
    (metricKey dateKey : Option String) (groupKey : Option String)
    (selectedGroupValue : String) : List TSPoint :=
  match metricKey, dateKey with
  | some mk1, some dk1 =>
    let latestPerDay := filteredRows.foldl
      (timeSeriesStep env mk1 dk1 groupKey selectedGroupValue) []
    (latestPerDay.map fun p => TSPoint.mk p.1 p.2).mergeSort
      fun a b => a.date ≤ b.date
  | _, _ => []

/-- The metric values of the rows contributing to a given day, in
processing order. -/
def dayContribs (env : JsEnv) (mk1 dk1 : String) (groupKey : Option String)
    (selectedGroupValue : String) (rows : List Row) (day : String) : List ℚ :=
  rows.filterMap fun r =>
    match dayValue env mk1 dk1 groupKey selectedGroupValue r with
    | some (d, n) => if d = day then some n else none
    | none => none

theorem filter_overwrite_ne {α : Type} (m : List (String × α)) (d : String)
    (n : α) (day : String) (hne : d ≠ day) :
    (m.map fun p => if p.1 == d then (d, n) else p).filter
        (fun p => p.1 == day) =
      m.filter (fun p => p.1 == day) := by
  induction m with
  | nil => rfl
  | cons p m ih =>
    rw [List.map_cons, List.filter_cons, List.filter_cons]
    by_cases hp : p.1 = d
    · have h1 : ((if p.1 == d then (d, n) else p).1 == day) = false := by
        simp [hp, hne]
      have h2 : (p.1 == day) = false := by simp [hp, hne]
      rw [h1, h2]
      simp only [Bool.false_eq_true, if_false, reduceIte]
      exact ih
    · have hsame : (if p.1 == d then (d, n) else p) = p := by simp [hp]
      rw [hsame]
      by_cases hq : p.1 = day
      · have h2 : (p.1 == day) = true := by simp [hq]
        rw [h2]
        simp only [if_true, reduceIte]
        rw [ih]
      · have h2 : (p.1 == day) = false := by simp [hq]
        rw [h2]
        simp only [Bool.false_eq_true, if_false, reduceIte]
        exact ih

theorem mapSet_filter_ne {α : Type} (m : List (String × α)) (d : String)
    (n : α) (day : String) (hne : d ≠ day) :
    (mapSet m d n).filter (fun p => p.1 == day) =
      m.filter (fun p => p.1 == day) := by
  unfold mapSet
  by_cases h : m.any fun p => p.1 == d
  · simp only [h, if_true, reduceIte]
    exact filter_overwrite_ne m d n day hne
  · simp only [h, Bool.false_eq_true, if_false, reduceIte]
    rw [List.filter_append]
    have hlast : ((d, n).1 == day) = false := by simp [hne]
    simp [hlast]

theorem mapSet_filter_self {α : Type} (m : List (String × α)) (d : String)
    (n : α)
    (hsub : m.filter (fun p => p.1 == d) = [] ∨
      ∃ v, m.filter (fun p => p.1 == d) = [(d, v)]) :
    (mapSet m d n).filter (fun p => p.1 == d) = [(d, n)] := by
  unfold mapSet
  by_cases h : m.any fun p => p.1 == d
  · simp only [h, if_true, reduceIte]
    have hcomm : (fun p : String × α => p.1 == d) ∘
        (fun p : String × α => if p.1 == d then (d, n) else p) =
        fun p : String × α => p.1 == d := by
      funext p
      by_cases hp : p.1 = d
      · simp [hp]
      · simp [hp]
    rw [List.filter_map, hcomm]
    rcases hsub with hnil | ⟨v, hv⟩
    · rw [List.filter_eq_nil_iff] at hnil
      rw [List.any_eq_true] at h
      obtain ⟨p, hp, hpd⟩ := h
      exact absurd hpd (hnil p hp)
    · rw [hv]
      simp
  · simp only [h, Bool.false_eq_true, if_false, reduceIte]
    rw [List.filter_append]
    have hnil : m.filter (fun p => p.1 == d) = [] := by
      rw [List.filter_eq_nil_iff]
      intro p hp hpd
      exact h (List.any_eq_true.mpr ⟨p, hp, hpd⟩)
    rw [hnil]
    simp

/-- Generalized loop invariant of the per-day map fold: the entries for
any fixed day in the accumulated map are a single pair holding the last
contribution processed so far (or the starting entries when no row has
contributed to that day yet). -/
theorem timeSeries_fold (env : JsEnv) (mk1 dk1 : String)
    (gk : Option String) (sgv : String) :
    ∀ (rows : List Row) (m : List (String × ℚ)),
    (∀ day, m.filter (fun p => p.1 == day) = [] ∨
      ∃ v, m.filter (fun p => p.1 == day) = [(day, v)]) →
    ∀ day,
      (rows.foldl (timeSeriesStep env mk1 dk1 gk sgv) m).filter
          (fun p => p.1 == day) =
      (match (dayContribs env mk1 dk1 gk sgv rows day).getLast? with
       | some v => [(day, v)]
       | none => m.filter (fun p => p.1 == day)) := by
  intro rows
  induction rows with
  | nil =>
    intro m _ day
    simp [dayContribs]
  | cons r rows ih =>
    intro m hm day
    rw [List.foldl_cons]
    cases hdv : dayValue env mk1 dk1 gk sgv r with
    | none =>
      have hstep : timeSeriesStep env mk1 dk1 gk sgv m r = m := by
        unfold timeSeriesStep
        rw [hdv]
      have hc : dayContribs env mk1 dk1 gk sgv (r :: rows) day =
          dayContribs env mk1 dk1 gk sgv rows day := by
        unfold dayContribs
        rw [List.filterMap_cons, hdv]
      rw [hstep, hc]
      exact ih m hm day
    | some dn =>
      obtain ⟨d, n⟩ := dn
      have hstep : timeSeriesStep env mk1 dk1 gk sgv m r = mapSet m d n := by
        unfold timeSeriesStep
        rw [hdv]
      rw [hstep]
      have hm2 : ∀ day2, (mapSet m d n).filter (fun p => p.1 == day2) = [] ∨
          ∃ v, (mapSet m d n).filter (fun p => p.1 == day2) = [(day2, v)] := by
        intro day2
        by_cases hd2 : d = day2
        · subst hd2
          right
          exact ⟨n, mapSet_filter_self m d n (hm d)⟩
        · rw [mapSet_filter_ne m d n day2 hd2]
          exact hm day2
      by_cases hday : d = day
      · subst hday
        have hc : dayContribs env mk1 dk1 gk sgv (r :: rows) d =
            n :: dayContribs env mk1 dk1 gk sgv rows d := by
          unfold dayContribs
          rw [List.filterMap_cons, hdv]
          simp
        rw [hc, ih (mapSet m d n) hm2 d, List.getLast?_cons]
        cases hl : (dayContribs env mk1 dk1 gk sgv rows d).getLast? with
        | some v => rfl
        | none =>
          simp only [Option.getD_none]
          exact mapSet_filter_self m d n (hm d)
      · have hc : dayContribs env mk1 dk1 gk sgv (r :: rows) day =
            dayContribs env mk1 dk1 gk sgv rows day := by
          unfold dayContribs
          rw [List.filterMap_cons, hdv]
          simp [hday]
        rw [hc, ih (mapSet m d n) hm2 day]
        cases (dayContribs env mk1 dk1 gk sgv rows day).getLast? with
        | some v => rfl
        | none => exact mapSet_filter_ne m d n day hday

/-- C7: in the daily time series, each calendar day occurs at most once
and carries the metric value of the last-processed contributing row for
that day (last write wins, not averaged); a day is present exactly when
some row contributes to it. -/
theorem timeSeries_last_write_wins (env : JsEnv) (rows : List Row)
    (mk1 dk1 : String) (gk : Option String) (sgv day : String) :
    (timeSeries env rows (some mk1) (some dk1) gk sgv).filter
        (fun p => p.date == day) =
      (match (dayContribs env mk1 dk1 gk sgv rows day).getLast? with
       | some v => [TSPoint.mk day v]
       | none => []) := by
  have hinv := timeSeries_fold env mk1 dk1 gk sgv rows []
    (fun day2 => Or.inl rfl) day
  have h1 : (timeSeries env rows (some mk1) (some dk1) gk sgv).Perm
      ((rows.foldl (timeSeriesStep env mk1 dk1 gk sgv) []).map
        fun p => TSPoint.mk p.1 p.2) := List.mergeSort_perm _ _
  have hperm := h1.filter (fun p => p.date == day)
  rw [List.filter_map] at hperm
  have hcomp : ((rows.foldl (timeSeriesStep env mk1 dk1 gk sgv) []).filter
      ((fun p : TSPoint => p.date == day) ∘ fun p => TSPoint.mk p.1 p.2)) =
      ((rows.foldl (timeSeriesStep env mk1 dk1 gk sgv) []).filter
        fun p => p.1 == day) := rfl
  rw [hcomp, hinv] at hperm
  cases hl : (dayContribs env mk1 dk1 gk sgv rows day).getLast? with
  | some v =>
    rw [hl] at hperm
    simp only [List.map_cons, List.map_nil] at hperm
    exact List.perm_singleton.mp hperm
  | none =>
    rw [hl] at hperm
    simp only [List.filter_nil, List.map_nil] at hperm
    exact List.perm_nil.mp hperm

/-! ### Statistics aggregator (App.tsx 309-323) -/

/-- The coercible metric values of the filtered rows, in row order: the
map-and-filter chain shared by the histogram and statistics
aggregators. -/
def metricValues (env : JsEnv) (rows : List Row) (mk1 : String) : List ℚ :=
  rows.filterMap fun r => coerceNumber env (getVal r mk1)

/-- The summary-statistics record. -/
structure StatsR where
  count : ℕ
  min : ℚ
  max : ℚ
  mean : ℚ
  median : ℚ
  p95 : ℚ
deriving DecidableEq, Repr

/-- App.tsx stats: null without a metric column; all-zero record on
zero coercible values; otherwise order statistics over the
ascending-sorted coercible values. -/
def stats (env : JsEnv) (filteredRows : List Row) (metricKey : Option String) :
    Option StatsR :=
  match metricKey with
  | none => none
  | some mk1 =>
    let vals := (metricValues env filteredRows mk1).mergeSort fun a b => a ≤ b
    let count := vals.length
    if count = 0 then some ⟨0, 0, 0, 0, 0, 0⟩
    else some
      { count := count,
        min := vals.getD 0 0,
        max := vals.getD (count - 1) 0,
        mean := vals.sum / count,
        median :=
          if count % 2 = 1 then vals.getD ((count - 1) / 2) 0
          else (vals.getD (count / 2 - 1) 0 + vals.getD (count / 2) 0) / 2,
        p95 := vals.getD
          (Min.min (count - 1) (Int.toNat ⌊(count : ℚ) * (95 / 100)⌋)) 0 }

/-- C9: with a metric column selected but zero coercible metric values,
stats returns the all-zero record with count 0 on the ordinary code
path. -/
theorem stats_empty (env : JsEnv) (rows : List Row) (mk1 : String)
    (h : metricValues env rows mk1 = []) :
    stats env rows (some mk1) = some ⟨0, 0, 0, 0, 0, 0⟩ := by
  simp [stats, h]

/-- Concrete instance of the C9 theorem: one row whose metric value is
a non-numeric string. -/
theorem stats_empty_witness :
    metricValues idEnv [[("m", JsVal.str "x")]] "m" = [] ∧
    stats idEnv [[("m", JsVal.str "x")]] (some "m") =
      some ⟨0, 0, 0, 0, 0, 0⟩ :=
  ⟨by decide, stats_empty idEnv [[("m", JsVal.str "x")]] "m" (by decide)⟩

/-- C6: the p95 statistic is the nearest-rank percentile: the entry of
the ascending-sorted coercible values at index floor(count times 0.95)
clamped to count minus 1, with no interpolation. -/
theorem stats_p95_nearest_rank (env : JsEnv) (rows : List Row) (mk1 : String)
    (sorted : List ℚ)
    (hperm : sorted.Perm (metricValues env rows mk1))
    (hsorted : sorted.Sorted (· ≤ ·))
    (hne : sorted ≠ []) (st : StatsR)
    (hst : stats env rows (some mk1) = some st) :
    st.count = sorted.length ∧
    st.p95 = sorted.getD
      (Min.min (sorted.length - 1)
        (Int.toNat ⌊(sorted.length : ℚ) * (95 / 100)⌋)) 0 := by
  have hv_perm : ((metricValues env rows mk1).mergeSort
      fun a b => a ≤ b).Perm (metricValues env rows mk1) :=
    List.mergeSort_perm _ _
  have hv_sorted : ((metricValues env rows mk1).mergeSort
      fun a b => a ≤ b).Sorted (· ≤ ·) := by
    have ht : ∀ a b c : ℚ, (decide (a ≤ b)) = true → (decide (b ≤ c)) = true →
        (decide (a ≤ c)) = true := by
      intro a b c hab hbc
      rw [decide_eq_true_eq] at hab hbc ⊢
      exact le_trans hab hbc
    have hto : ∀ a b : ℚ, (decide (a ≤ b) || decide (b ≤ a)) = true := by
      intro a b
      rcases le_total a b with h | h <;> simp [h]
    have hp := List.sorted_mergeSort ht hto (metricValues env rows mk1)
    exact hp.imp fun hab => of_decide_eq_true hab
  have heq : sorted = (metricValues env rows mk1).mergeSort
      fun a b => a ≤ b :=
    List.eq_of_perm_of_sorted (hperm.trans hv_perm.symm) hsorted hv_sorted
  have hlen : ((metricValues env rows mk1).mergeSort
      fun a b => a ≤ b).length ≠ 0 := by
    rw [← heq]
    intro hc
    exact hne (List.length_eq_zero.mp hc)
  simp only [stats] at hst
  rw [if_neg hlen] at hst
  obtain hrec := Option.some.inj hst
  subst hrec
  constructor
  · rw [heq]
  · rw [heq]

/-- Twenty rows carrying the metric values 1 to 20. -/
def rows20 : List Row :=
  [[("m", JsVal.num 1)], [("m", JsVal.num 2)], [("m", JsVal.num 3)],
   [("m", JsVal.num 4)], [("m", JsVal.num 5)], [("m", JsVal.num 6)],
   [("m", JsVal.num 7)], [("m", JsVal.num 8)], [("m", JsVal.num 9)],
   [("m", JsVal.num 10)], [("m", JsVal.num 11)], [("m", JsVal.num 12)],
   [("m", JsVal.num 13)], [("m", JsVal.num 14)], [("m", JsVal.num 15)],
   [("m", JsVal.num 16)], [("m", JsVal.num 17)], [("m", JsVal.num 18)],
   [("m", JsVal.num 19)], [("m", JsVal.num 20)]]

/-- The sorted values 1 to 20. -/
def sorted20 : List ℚ :=
  [1, 2, 3, 4, 5, 6, 7, 8, 9, 10, 11, 12, 13, 14, 15, 16, 17, 18, 19, 20]

/-- Concrete instance of the C6 theorem: for the 20 sorted values 1 to
20 the p95 index is 19 and the p95 value is 20 (the maximum). -/
theorem stats_p95_witness :
    ∃ st, stats idEnv rows20 (some "m") = some st ∧ st.count = 20 ∧
      st.p95 = 20 := by
  have hlen : ¬(((metricValues idEnv rows20 "m").mergeSort
      fun a b => a ≤ b).length = 0) := by
    rw [List.length_mergeSort]
    decide
  obtain ⟨st, hst⟩ : ∃ st, stats idEnv rows20 (some "m") = some st := by
    simp only [stats]
    rw [if_neg hlen]
    exact ⟨_, rfl⟩
  have hperm : sorted20.Perm (metricValues idEnv rows20 "m") :=
    (List.Perm.refl sorted20 : sorted20.Perm (metricValues idEnv rows20 "m"))
  have hsorted : sorted20.Sorted (fun a b => a ≤ b) := by decide
  have h := stats_p95_nearest_rank idEnv rows20 "m" sorted20 hperm hsorted
    (by decide) st hst
  have hidx : Min.min (sorted20.length - 1)
      (Int.toNat ⌊(sorted20.length : ℚ) * (95 / 100)⌋) = 19 := by
    norm_num [sorted20]
  refine ⟨st, hst, ?_, ?_⟩
  · rw [h.1]
    rfl
  · rw [h.2, hidx]
    rfl

/-! ### Histogram aggregator (App.tsx 287-307, 600-605) -/

/-- App.tsx formatValue: magnitude-dependent number formatting,
delegating to the locale/toFixed builtins. -/
def formatValue (env : JsEnv) (n : ℚ) : String :=
  if 1000 ≤ |n| then env.toLocale n
  else if 100 ≤ |n| then env.toFixed n 0
  else if 10 ≤ |n| then env.toFixed n 1
  else env.toFixed n 2

/-- Math.min over a spread non-empty list. -/
def listMin : List ℚ → ℚ
  | [] => 0
  | v :: vs => vs.foldl Min.min v

/-- Math.max over a spread non-empty list. -/
def listMax : List ℚ → ℚ
  | [] => 0
  | v :: vs => vs.foldl Max.max v

/-- The bucket width: (max - min) / bins, replaced by 1 when that is 0
(the JavaScript expression (max - min) / bins || 1). -/
def histStepSize (mn mx : ℚ) : ℚ :=
  if (mx - mn) / 20 = 0 then 1 else (mx - mn) / 20

/-- The bucket of a value: floor((v - min) / step) clamped into
[0, 19] (Math.min(bins - 1, Math.max(0, Math.floor(...)))). -/
def bucketIdx (mn step v : ℚ) : ℕ :=
  Min.min 19 (Int.toNat ⌊(v - mn) / step⌋)

/-- One iteration of the histogram counting loop: increment the bucket
of the value. -/
def histStep (mn step : ℚ) (cs : List ℕ) (v : ℚ) : List ℕ :=
  cs.set (bucketIdx mn step v) (cs.getD (bucketIdx mn step v) 0 + 1)

/-- App.tsx histogram: empty without a metric column or without
coercible values, else 20 equal-width buckets with formatted range
labels. -/
def histogram (env : JsEnv) (filteredRows : List Row)
    (metricKey : Option String) : List (String × ℕ) :=
  match metricKey with
  | none => []
  | some mk1 =>
    let values := metricValues env filteredRows mk1
    if values = [] then []
    else
      let mn := listMin values
      let mx := listMax values
      let step := histStepSize mn mx
      let counts := values.foldl (histStep mn step) (List.replicate 20 0)
      counts.enum.map fun p =>
        (formatValue env (mn + p.1 * step) ++ "–" ++
          formatValue env (mn + p.1 * step + step), p.2)

theorem sum_set_incr : ∀ (l : List ℕ) (i : ℕ), i < l.length →
    (l.set i (l.getD i 0 + 1)).sum = l.sum + 1 := by
  intro l
  induction l with
  | nil => intro i hi; exact absurd hi (by simp)
  | cons a l ih =>
    intro i hi
    cases i with
    | zero => simp [List.getD_cons_zero]
              omega
    | succ i =>
      rw [List.getD_cons_succ, List.set_cons_succ, List.sum_cons, List.sum_cons,
        ih i (by simpa using hi)]
      omega

theorem replicate_getD (n : ℕ) (i : ℕ) : (List.replicate n (0 : ℕ)).getD i 0 = 0 := by
  rw [List.getD_eq_getElem?_getD, List.getElem?_replicate]
  by_cases h : i < n
  · simp [h]
  · simp [h]

theorem bucketIdx_lt (mn step v : ℚ) : bucketIdx mn step v < 20 := by
  unfold bucketIdx
  omega

/-- Invariant of the histogram counting fold: length 20 is preserved,
the total count grows by one per value, and each bucket holds the
number of processed values falling in it. -/
theorem histCounts_spec (mn step : ℚ) : ∀ (values : List ℚ) (cs : List ℕ),
    cs.length = 20 →
    ((values.foldl (histStep mn step) cs).length = 20 ∧
     (values.foldl (histStep mn step) cs).sum = cs.sum + values.length ∧
     ∀ i, (values.foldl (histStep mn step) cs).getD i 0 =
       cs.getD i 0 +
         (values.filter fun v => bucketIdx mn step v = i).length) := by
  intro values
  induction values with
  | nil =>
    intro cs hcs
    refine ⟨hcs, by simp, ?_⟩
    intro i
    simp
  | cons v values ih =>
    intro cs hcs
    rw [List.foldl_cons]
    have hidx : bucketIdx mn step v < cs.length := by
      rw [hcs]
      exact bucketIdx_lt mn step v
    have hcs2 : (histStep mn step cs v).length = 20 := by
      unfold histStep
      rw [List.length_set, hcs]
    obtain ⟨hl, hs, ht⟩ := ih (histStep mn step cs v) hcs2
    refine ⟨hl, ?_, ?_⟩
    · rw [hs]
      unfold histStep
      rw [sum_set_incr cs (bucketIdx mn step v) hidx]
      simp only [List.length_cons]
      omega
    · intro i
      rw [ht i]
      have hfil : ((v :: values).filter fun w => bucketIdx mn step w = i) =
          if bucketIdx mn step v = i
          then v :: (values.filter fun w => bucketIdx mn step w = i)
          else values.filter fun w => bucketIdx mn step w = i := by
        rw [List.filter_cons]
        by_cases hd : bucketIdx mn step v = i
        · simp [hd]
        · simp [hd]
      rw [hfil]
      by_cases hd : bucketIdx mn step v = i
      · subst hd
        have hget : (histStep mn step cs v).getD (bucketIdx mn step v) 0 =
            cs.getD (bucketIdx mn step v) 0 + 1 := by
          unfold histStep
          rw [List.getD_eq_getElem?_getD, List.getElem?_set_self hidx,
            List.getD_eq_getElem?_getD]
          rfl
        rw [hget]
        simp only [if_true, reduceIte, List.length_cons]
        omega
      · have hget : (histStep mn step cs v).getD i 0 = cs.getD i 0 := by
          unfold histStep
          rw [List.getD_eq_getElem?_getD, List.getElem?_set_ne hd,
            List.getD_eq_getElem?_getD]
        rw [hget]
        simp [hd]

theorem histogram_eq (env : JsEnv) (rows : List Row) (mk1 : String)
    (hne : metricValues env rows mk1 ≠ []) :
    histogram env rows (some mk1) =
      ((metricValues env rows mk1).foldl
        (histStep (listMin (metricValues env rows mk1))
          (histStepSize (listMin (metricValues env rows mk1))
            (listMax (metricValues env rows mk1))))
        (List.replicate 20 0)).enum.map (fun p =>
          (formatValue env (listMin (metricValues env rows mk1) +
              p.1 * histStepSize (listMin (metricValues env rows mk1))
                (listMax (metricValues env rows mk1))) ++ "–" ++
            formatValue env (listMin (metricValues env rows mk1) +
              p.1 * histStepSize (listMin (metricValues env rows mk1))
                (listMax (metricValues env rows mk1)) +
              histStepSize (listMin (metricValues env rows mk1))
                (listMax (metricValues env rows mk1))), p.2)) := by
  simp only [histogram]
  rw [if_neg hne]

/-- C5: with at least one coercible value the histogram has exactly 20
buckets; bucket i counts exactly the values whose clamped floor index
is i; the total count equals the number of coercible values (nothing is
dropped); the width degenerates to 1 when min equals max; and when min
is strictly below max the maximum value lands in bucket 19. -/
theorem histogram_spec (env : JsEnv) (rows : List Row) (mk1 : String)
    (hne : metricValues env rows mk1 ≠ []) :
    (histogram env rows (some mk1)).length = 20 ∧
    (∀ i, i < 20 →
      ((histogram env rows (some mk1)).getD i ("", 0)).2 =
        ((metricValues env rows mk1).filter fun v =>
          bucketIdx (listMin (metricValues env rows mk1))
            (histStepSize (listMin (metricValues env rows mk1))
              (listMax (metricValues env rows mk1))) v = i).length) ∧
    ((histogram env rows (some mk1)).map fun b => b.2).sum =
      (metricValues env rows mk1).length ∧
    (listMin (metricValues env rows mk1) = listMax (metricValues env rows mk1) →
      histStepSize (listMin (metricValues env rows mk1))
        (listMax (metricValues env rows mk1)) = 1) ∧
    (listMin (metricValues env rows mk1) < listMax (metricValues env rows mk1) →
      bucketIdx (listMin (metricValues env rows mk1))
        (histStepSize (listMin (metricValues env rows mk1))
          (listMax (metricValues env rows mk1)))
        (listMax (metricValues env rows mk1)) = 19) := by
  obtain ⟨hl, hs, ht⟩ := histCounts_spec
    (listMin (metricValues env rows mk1))
    (histStepSize (listMin (metricValues env rows mk1))
      (listMax (metricValues env rows mk1)))
    (metricValues env rows mk1) (List.replicate 20 0)
    (by rw [List.length_replicate])
  refine ⟨?_, ?_, ?_, ?_, ?_⟩
  · rw [histogram_eq env rows mk1 hne, List.length_map, List.enum_length, hl]
  · intro i hi
    rw [histogram_eq env rows mk1 hne, List.getD_eq_getElem?_getD,
      List.getElem?_map, List.getElem?_enum]
    have hib : i < ((metricValues env rows mk1).foldl
        (histStep (listMin (metricValues env rows mk1))
          (histStepSize (listMin (metricValues env rows mk1))
            (listMax (metricValues env rows mk1))))
        (List.replicate 20 0)).length := by
      rw [hl]
      exact hi
    rw [List.getElem?_eq_getElem hib]
    have hgd := ht i
    rw [replicate_getD, Nat.zero_add] at hgd
    simp only [Option.map_some', Option.getD_some]
    rw [← List.getD_eq_getElem _ 0 hib, hgd]
  · rw [histogram_eq env rows mk1 hne, List.map_map]
    have hsnd : ((((metricValues env rows mk1).foldl
        (histStep (listMin (metricValues env rows mk1))
          (histStepSize (listMin (metricValues env rows mk1))
            (listMax (metricValues env rows mk1))))
        (List.replicate 20 0)).enum.map Prod.snd)).sum =
        (metricValues env rows mk1).length := by
      rw [List.enum_map_snd, hs, List.sum_replicate]
      simp
    exact hsnd
  · intro h
    unfold histStepSize
    rw [h]
    simp
  · intro hlt
    have hne0 : listMax (metricValues env rows mk1) -
        listMin (metricValues env rows mk1) ≠ 0 :=
      ne_of_gt (sub_pos.mpr hlt)
    have hstep : histStepSize (listMin (metricValues env rows mk1))
        (listMax (metricValues env rows mk1)) =
        (listMax (metricValues env rows mk1) -
          listMin (metricValues env rows mk1)) / 20 := by
      unfold histStepSize
      rw [if_neg]
      intro hc
      rw [div_eq_zero_iff] at hc
      rcases hc with hc | hc
      · exact hne0 hc
      · norm_num at hc
    rw [hstep]
    unfold bucketIdx
    have harg : (listMax (metricValues env rows mk1) -
        listMin (metricValues env rows mk1)) /
        ((listMax (metricValues env rows mk1) -
          listMin (metricValues env rows mk1)) / 20) = 20 := by
      rw [div_div_eq_mul_div, mul_comm, mul_div_assoc, div_self hne0, mul_one]
    rw [harg]
    norm_num

/-- Two rows with metric values 0 and 10. -/
def rows01 : List Row := [[("m", JsVal.num 0)], [("m", JsVal.num 10)]]

/-- Concrete instance of the C5 theorem: for the values 0 and 10 the
histogram has 20 buckets, nothing is dropped, and the maximum value 10
falls in bucket 19. -/
theorem histogram_spec_witness :
    metricValues idEnv rows01 "m" ≠ [] ∧
    (histogram idEnv rows01 (some "m")).length = 20 ∧
    ((histogram idEnv rows01 (some "m")).map fun b => b.2).sum = 2 ∧
    bucketIdx (listMin (metricValues idEnv rows01 "m"))
      (histStepSize (listMin (metricValues idEnv rows01 "m"))
        (listMax (metricValues idEnv rows01 "m")))
      (listMax (metricValues idEnv rows01 "m")) = 19 := by
  have h := histogram_spec idEnv rows01 "m" (by decide)
  refine ⟨by decide, h.1, ?_, ?_⟩
  · rw [h.2.2.1]
    rfl
  · apply h.2.2.2.2
    decide

/-! ### Latest-value ranking aggregator (App.tsx 193-222) -/

/-- A ranking entry: display label and latest metric value. -/
structure ChartEntry where
  label : String
  value : ℚ
deriving DecidableEq, Repr

/-- The two maps accumulated by the chartData loop: latest (recency
timestamp, value) per group key, and cached display name per group
key, both in insertion order. -/
structure ChartState where
  latest : List (String × (Int × ℚ))
  names : List (String × String)
deriving DecidableEq, Repr

/-- The group key of a row: its group-column value when that is a
string that is non-blank (truthy after the trim builtin), else none
(the row is skipped). -/
def rowGroup (env : JsEnv) (gk : String) (r : Row) : Option String :=
  match getVal r gk with
  | .str g => if env.trim g = "" then none else some g
  | _ => none

/-- The recency timestamp of a row: the parsed date-column value, or 0
when the date column is unset, the value is not a string, or parsing
fails. -/
def rowRecency (env : JsEnv) (dateKey : Option String) (r : Row) : Int :=
  match dateKey with
  | some dk =>
    match getVal r dk with
    | .str ds =>
      match env.parseDate ds with
      | some tt => tt
      | none => 0
    | _ => 0
  | none => 0

/-- One iteration of the chartData loop: skip rows without a non-blank
group or coercible metric; cache the first non-blank display name per
group; keep the entry with maximal recency, later rows winning ties
(the t greater-or-equal prev.dateMs comparison). -/
def chartStep (env : JsEnv) (gk mk1 : String) (dateKey nameKey : Option String)
    (st : ChartState) (r : Row) : ChartState :=
  match rowGroup env gk r with
  | none => st
  | some g =>
    match coerceNumber env (getVal r mk1) with
    | none => st
    | some n =>
      let names :=
        match nameKey with
        | some nk =>
          match getVal r nk with
          | .str nm =>
            if env.trim nm ≠ "" ∧ ¬(st.names.any fun p => p.1 == g)
            then mapSet st.names g nm else st.names
          | _ => st.names
        | none => st.names
      let t := rowRecency env dateKey r
      let latest :=
        match st.latest.lookup g with
        | none => mapSet st.latest g (t, n)
        | some prev => if prev.1 ≤ t then mapSet st.latest g (t, n) else st.latest
      { latest := latest, names := names }

/-- The state after the chartData loop. -/
def chartFold (env : JsEnv) (gk mk1 : String) (dateKey nameKey : Option String)
    (rows : List Row) : ChartState :=
  rows.foldl (chartStep env gk mk1 dateKey nameKey) ⟨[], []⟩

/-- App.tsx chartData: map the latest-per-group entries to labelled
values, sort descending by value, and keep the top 10. -/
def chartData (env : JsEnv) (filteredRows : List Row)
    (groupKey metricKey dateKey nameKey : Option String) : List ChartEntry :=
  match groupKey, metricKey with
  | some gk, some mk1 =>
    let st := chartFold env gk mk1 dateKey nameKey filteredRows
    let data := st.latest.map fun p =>
      ChartEntry.mk ((st.names.lookup p.1).getD p.1) p.2.2
    (data.mergeSort fun a b => b.value ≤ a.value).take 10
  | _, _ => []

/-- The (recency, value) pair a row offers for a given group key: some
entry when the row is eligible (non-blank group equal to the key,
coercible metric), else none. -/
def chartEntryOf (env : JsEnv) (gk mk1 : String) (dateKey : Option String)
    (r : Row) (g : String) : Option (Int × ℚ) :=
  match rowGroup env gk r with
  | some g2 =>
    if g2 = g then
      (coerceNumber env (getVal r mk1)).map fun n =>
        (rowRecency env dateKey r, n)
    else none
  | none => none

/-- The (recency, value) pairs of the rows eligible for a given group
key, in processing order: rows whose group value is that non-blank
string and whose metric value coerces. -/
def eligibleEntries (env : JsEnv) (gk mk1 : String) (dateKey : Option String)
    (rows : List Row) (g : String) : List (Int × ℚ) :=
  rows.filterMap fun r => chartEntryOf env gk mk1 dateKey r g

/-- The non-blank display name a row offers for a given group key, when
the row is eligible for that key. -/
def nameOf (env : JsEnv) (gk mk1 nk : String) (r : Row) (g : String) :
    Option String :=
  match rowGroup env gk r with
  | some g2 =>
    if g2 = g then
      match coerceNumber env (getVal r mk1) with
      | some _ =>
        match getVal r nk with
        | .str nm => if env.trim nm ≠ "" then some nm else none
        | _ => none
      | none => none
    else none
  | none => none

/-- The non-blank display names offered for a given group key by its
eligible rows, in processing order. -/
def nameCandidates (env : JsEnv) (gk mk1 nk : String)
    (rows : List Row) (g : String) : List String :=
  rows.filterMap fun r => nameOf env gk mk1 nk r g

/-- The update rule of the latest-per-group map, applied to one group's
stream of eligible entries: keep the incoming entry when its timestamp
is at least the current one. -/
def pickLatest (acc : Option (Int × ℚ)) (e : Int × ℚ) : Option (Int × ℚ) :=
  match acc with
  | none => some e
  | some prev => if prev.1 ≤ e.1 then some e else some prev

theorem lookup_overwrite {α : Type} (m : List (String × α)) (k : String)
    (v : α) :
    (m.map fun p => if p.1 == k then (k, v) else p).lookup k =
      (m.lookup k).map fun _ => v := by
  induction m with
  | nil => rfl
  | cons p m ih =>
    rw [List.map_cons]
    by_cases hp : p.1 = k
    · have h1 : (if p.1 == k then (k, v) else p) = (k, v) := by simp [hp]
      rw [h1]
      have h2 : (p :: m).lookup k = some p.2 := by
        obtain ⟨a, b⟩ := p
        rw [List.lookup_cons]
        simp only at hp
        simp [hp]
      rw [h2]
      rw [List.lookup_cons]
      simp
    · have h1 : (if p.1 == k then (k, v) else p) = p := by simp [hp]
      rw [h1]
      obtain ⟨a, b⟩ := p
      simp only at hp
      rw [List.lookup_cons, List.lookup_cons]
      have hbeq : (k == a) = false := by
        simp [Ne.symm hp]
      simp only [hbeq]
      exact ih

theorem lookup_overwrite_ne {α : Type} (m : List (String × α)) (k : String)
    (v : α) (k2 : String) (h : k2 ≠ k) :
    (m.map fun p => if p.1 == k then (k, v) else p).lookup k2 =
      m.lookup k2 := by
  induction m with
  | nil => rfl
  | cons p m ih =>
    rw [List.map_cons]
    obtain ⟨a, b⟩ := p
    by_cases hp : a = k
    · have h1 : (if (a, b).1 == k then (k, v) else (a, b)) = (k, v) := by
        simp [hp]
      rw [h1, List.lookup_cons, List.lookup_cons]
      have h2 : (k2 == k) = false := by simp [h]
      have h3 : (k2 == a) = false := by simp [hp ▸ h]
      simp only [h2, h3]
      exact ih
    · have h1 : (if (a, b).1 == k then (k, v) else (a, b)) = (a, b) := by
        simp [hp]
      rw [h1, List.lookup_cons, List.lookup_cons]
      cases hk2 : k2 == a with
      | true => rfl
      | false => exact ih

theorem lookup_append_assoc {α : Type} (m m2 : List (String × α))
    (k : String) :
    (m ++ m2).lookup k = (m.lookup k).or (m2.lookup k) := by
  induction m with
  | nil => rfl
  | cons p m ih =>
    obtain ⟨a, b⟩ := p
    rw [List.cons_append, List.lookup_cons, List.lookup_cons]
    cases hk : k == a with
    | true => rfl
    | false => exact ih

theorem lookup_eq_none_of_not_any {α : Type} (k : String) :
    ∀ (m : List (String × α)), ¬(m.any fun p => p.1 == k) = true →
    m.lookup k = none := by
  intro m
  induction m with
  | nil => intro _; rfl
  | cons p m ih =>
    intro h
    obtain ⟨a, b⟩ := p
    rw [List.any_cons] at h
    have h1 : ¬(a == k) = true := fun hc => h (by simp [hc])
    have h3 : ¬(m.any fun p => p.1 == k) = true := fun hc => h (by simp [hc])
    rw [List.lookup_cons]
    have h2 : (k == a) = false := by
      cases hc : k == a with
      | false => rfl
      | true =>
        rw [beq_iff_eq] at hc
        exact absurd (by simp [hc]) h1
    simp only [h2]
    exact ih h3

theorem lookup_any_isSome {α : Type} (k : String) :
    ∀ (m : List (String × α)), (m.any fun p => p.1 == k) = true →
    ∃ w, m.lookup k = some w := by
  intro m
  induction m with
  | nil => intro h; simp at h
  | cons p m ih =>
    intro h
    obtain ⟨a, b⟩ := p
    rw [List.lookup_cons]
    rw [List.any_cons] at h
    cases hk : k == a with
    | true => exact ⟨b, rfl⟩
    | false =>
      apply ih
      rcases (by simpa using h : a = k ∨ m.any fun p => p.1 == k) with hx | hx
      · subst hx
        simp at hk
      · exact hx

theorem lookup_mapSet_self {α : Type} (m : List (String × α)) (k : String)
    (v : α) : (mapSet m k v).lookup k = some v := by
  unfold mapSet
  by_cases h : m.any fun p => p.1 == k
  · simp only [h, if_true, reduceIte]
    rw [lookup_overwrite]
    obtain ⟨w, hw⟩ := lookup_any_isSome k m h
    rw [hw]
    rfl
  · simp only [h, Bool.false_eq_true, if_false, reduceIte]
    rw [lookup_append_assoc, lookup_eq_none_of_not_any k m h]
    rw [List.lookup_cons]
    simp

theorem lookup_mapSet_ne {α : Type} (m : List (String × α)) (k : String)
    (v : α) (k2 : String) (h : k2 ≠ k) :
    (mapSet m k v).lookup k2 = m.lookup k2 := by
  unfold mapSet
  by_cases ha : m.any fun p => p.1 == k
  · simp only [ha, if_true, reduceIte]
    exact lookup_overwrite_ne m k v k2 h
  · simp only [ha, Bool.false_eq_true, if_false, reduceIte]
    rw [lookup_append_assoc, List.lookup_cons]
    have h2 : (k2 == k) = false := by simp [h]
    simp only [h2]
    cases m.lookup k2 with
    | some w => rfl
    | none => rfl

theorem chartStep_latest_lookup (env : JsEnv) (gk mk1 : String)
    (dateKey nameKey : Option String) (st : ChartState) (r : Row)
    (g : String) :
    (chartStep env gk mk1 dateKey nameKey st r).latest.lookup g =
      (match chartEntryOf env gk mk1 dateKey r g with
       | some e => pickLatest (st.latest.lookup g) e
       | none => st.latest.lookup g) := by
  unfold chartStep chartEntryOf
  cases hrg : rowGroup env gk r with
  | none => rfl
  | some g2 =>
    cases hcn : coerceNumber env (getVal r mk1) with
    | none =>
      by_cases hg : g2 = g
      · simp [hg]
      · simp [hg]
    | some n =>
      simp only [Option.map_some']
      by_cases hg : g2 = g
      · subst hg
        simp only [if_true, reduceIte]
        cases hlk : st.latest.lookup g2 with
        | none =>
          simp only [hlk]
          unfold pickLatest
          exact lookup_mapSet_self st.latest g2 (rowRecency env dateKey r, n)
        | some prev =>
          simp only [hlk]
          unfold pickLatest
          by_cases hle : prev.1 ≤ rowRecency env dateKey r
          · simp only [hle, if_true, reduceIte]
            exact lookup_mapSet_self st.latest g2 (rowRecency env dateKey r, n)
          · simp only [hle, if_false, reduceIte]
            exact hlk
      · have hg2 : (if g2 = g then
            some (rowRecency env dateKey r, n) else none) = none := by
          simp [hg]
        rw [hg2]
        cases hlk : st.latest.lookup g2 with
        | none =>
          simp only [hlk]
          exact lookup_mapSet_ne st.latest g2 (rowRecency env dateKey r, n) g
            (Ne.symm hg)
        | some prev =>
          simp only [hlk]
          by_cases hle : prev.1 ≤ rowRecency env dateKey r
          · simp only [hle, if_true, reduceIte]
            exact lookup_mapSet_ne st.latest g2 (rowRecency env dateKey r, n) g
              (Ne.symm hg)
          · simp only [hle, if_false, reduceIte]

theorem chartFold_latest_lookup (env : JsEnv) (gk mk1 : String)
    (dateKey nameKey : Option String) :
    ∀ (rows : List Row) (st : ChartState) (g : String),
    (rows.foldl (chartStep env gk mk1 dateKey nameKey) st).latest.lookup g =
      (eligibleEntries env gk mk1 dateKey rows g).foldl pickLatest
        (st.latest.lookup g) := by
  intro rows
  induction rows with
  | nil =>
    intro st g
    rfl
  | cons r rows ih =>
    intro st g
    rw [List.foldl_cons]
    have hstep := chartStep_latest_lookup env gk mk1 dateKey nameKey st r g
    unfold eligibleEntries
    rw [List.filterMap_cons]
    cases he : chartEntryOf env gk mk1 dateKey r g with
    | none =>
      rw [he] at hstep
      simp only at hstep
      rw [ih (chartStep env gk mk1 dateKey nameKey st r) g, hstep]
      rfl
    | some e =>
      rw [he] at hstep
      simp only at hstep
      rw [ih (chartStep env gk mk1 dateKey nameKey st r) g, hstep]
      rfl

theorem foldl_pickLatest_isSome (a : Int × ℚ) :
    ∀ (es : List (Int × ℚ)), (es.foldl pickLatest (some a)).isSome = true := by
  intro es
  induction es generalizing a with
  | nil => rfl
  | cons e es ih =>
    rw [List.foldl_cons]
    unfold pickLatest
    by_cases h : a.1 ≤ e.1
    · simp only [h, if_true, reduceIte]
      exact ih e
    · simp only [h, if_false, reduceIte]
      exact ih a

theorem foldl_pickLatest_none_iff (es : List (Int × ℚ)) :
    es.foldl pickLatest none = none ↔ es = [] := by
  cases es with
  | nil => simp
  | cons e es =>
    constructor
    · intro h
      rw [List.foldl_cons] at h
      have h1 : pickLatest none e = some e := rfl
      rw [h1] at h
      have := foldl_pickLatest_isSome e es
      rw [h] at this
      simp at this
    · intro h
      exact absurd h (by simp)

/-- What the latest-per-group update rule keeps for one group: an
entry of the stream that attains the maximal timestamp, and among the
maximal ones the last processed. -/
theorem foldl_pickLatest_spec :
    ∀ (es : List (Int × ℚ)) (r : Int × ℚ),
    es.foldl pickLatest none = some r →
    (r ∈ es ∧ (∀ e ∈ es, e.1 ≤ r.1) ∧
      (es.filter fun e => e.1 == r.1).getLast? = some r) := by
  intro es
  induction es using List.reverseRecOn with
  | nil => intro r h; simp at h
  | append_singleton es e ih =>
    intro r h
    rw [List.foldl_concat] at h
    cases hacc : es.foldl pickLatest none with
    | none =>
      have hes : es = [] := (foldl_pickLatest_none_iff es).mp hacc
      subst hes
      rw [hacc] at h
      have he : pickLatest none e = some e := rfl
      rw [he] at h
      obtain rfl := Option.some.inj h
      refine ⟨by simp, ?_, ?_⟩
      · intro x hx
        simp only [List.nil_append, List.mem_singleton] at hx
        subst hx
        exact le_refl _
      · simp
    | some a =>
      rw [hacc] at h
      obtain ⟨ha_mem, ha_bound, ha_last⟩ := ih a hacc
      unfold pickLatest at h
      by_cases hle : a.1 ≤ e.1
      · simp only [hle, if_true, reduceIte] at h
        have hre : e = r := Option.some.inj h
        subst hre
        refine ⟨by simp, ?_, ?_⟩
        · intro x hx
          rcases List.mem_append.mp hx with hx | hx
          · exact le_trans (ha_bound x hx) hle
          · rw [List.mem_singleton.mp hx]
        · rw [List.filter_append]
          have he2 : ([e].filter fun x => x.1 == e.1) = [e] := by simp
          rw [he2, List.getLast?_concat]
      · simp only [hle, if_false, reduceIte] at h
        have har : a = r := Option.some.inj h
        subst har
        refine ⟨List.mem_append.mpr (Or.inl ha_mem), ?_, ?_⟩
        · intro x hx
          rcases List.mem_append.mp hx with hx | hx
          · exact ha_bound x hx
          · rw [List.mem_singleton.mp hx]
            exact le_of_not_le hle
        · rw [List.filter_append]
          have he : ([e].filter fun x => x.1 == a.1) = [] := by
            simp only [List.filter_cons, List.filter_nil]
            have : (e.1 == a.1) = false := by
              rw [beq_eq_false_iff_ne]
              intro hc
              exact hle (le_of_eq hc.symm)
            simp [this]
          rw [he, List.append_nil]
          exact ha_last

theorem chartData_eq (env : JsEnv) (rows : List Row) (gk mk1 : String)
    (dateKey nameKey : Option String) :
    chartData env rows (some gk) (some mk1) dateKey nameKey =
      (((chartFold env gk mk1 dateKey nameKey rows).latest.map fun p =>
          ChartEntry.mk
            (((chartFold env gk mk1 dateKey nameKey rows).names.lookup p.1).getD
              p.1) p.2.2).mergeSort
        fun a b => b.value ≤ a.value).take 10 := rfl

/-- C1 (amended: the group value must be non-blank, that is non-empty
after trimming whitespace): the ranking considers exactly the rows with
a non-blank group string and coercible metric; per group key it keeps
an entry attaining the maximal recency timestamp, the last-processed
one among ties; the output is sorted descending by value and holds at
most 10 entries. -/
theorem chartData_spec (env : JsEnv) (rows : List Row) (gk mk1 : String)
    (dateKey nameKey : Option String) :
    (chartData env rows (some gk) (some mk1) dateKey nameKey).length ≤ 10 ∧
    (chartData env rows (some gk) (some mk1) dateKey nameKey).Pairwise
      (fun a b => b.value ≤ a.value) ∧
    ∀ g : String,
      ((chartFold env gk mk1 dateKey nameKey rows).latest.lookup g = none ↔
        eligibleEntries env gk mk1 dateKey rows g = []) ∧
      (∀ t n,
        (chartFold env gk mk1 dateKey nameKey rows).latest.lookup g
          = some (t, n) →
        ((t, n) ∈ eligibleEntries env gk mk1 dateKey rows g ∧
         (∀ e ∈ eligibleEntries env gk mk1 dateKey rows g, e.1 ≤ t) ∧
         ((eligibleEntries env gk mk1 dateKey rows g).filter
            fun e => e.1 == t).getLast? = some (t, n))) := by
  have hfold : ∀ g, (chartFold env gk mk1 dateKey nameKey rows).latest.lookup g
      = (eligibleEntries env gk mk1 dateKey rows g).foldl pickLatest none := by
    intro g
    exact chartFold_latest_lookup env gk mk1 dateKey nameKey rows
      (ChartState.mk [] []) g
  refine ⟨?_, ?_, ?_⟩
  · rw [chartData_eq]
    exact List.length_take_le 10 _
  · rw [chartData_eq]
    have ht : ∀ a b c : ChartEntry, (decide (b.value ≤ a.value)) = true →
        (decide (c.value ≤ b.value)) = true →
        (decide (c.value ≤ a.value)) = true := by
      intro a b c hab hbc
      rw [decide_eq_true_eq] at hab hbc ⊢
      exact le_trans hbc hab
    have hto : ∀ a b : ChartEntry,
        (decide (b.value ≤ a.value) || decide (a.value ≤ b.value)) = true := by
      intro a b
      rcases le_total b.value a.value with h | h <;> simp [h]
    have hs := List.sorted_mergeSort ht hto
      ((chartFold env gk mk1 dateKey nameKey rows).latest.map fun p =>
        ChartEntry.mk
          (((chartFold env gk mk1 dateKey nameKey rows).names.lookup p.1).getD
            p.1) p.2.2)
    exact List.Pairwise.sublist (List.take_sublist 10 _)
      (hs.imp fun hab => of_decide_eq_true hab)
  · intro g
    constructor
    · rw [hfold g]
      exact foldl_pickLatest_none_iff _
    · intro t n h
      rw [hfold g] at h
      exact foldl_pickLatest_spec _ (t, n) h

/-- An environment whose trim builtin (like JavaScript trim) maps the
one-space string to the empty string. -/
def trimEnv : JsEnv :=
  { idEnv with trim := fun s => if s = " " then "" else s }

/-- A row whose group value is the non-empty but blank string. -/
def rowWS : Row := [("g", JsVal.str " "), ("m", JsVal.num 5)]

/-- C1 as stated is false: a row whose group value is the non-empty
string consisting of one space, with a coercible metric value, is not
considered at all: the ranking output is empty. -/
theorem chartData_nonempty_group_counterexample :
    getVal rowWS "g" = JsVal.str " " ∧ (" " : String) ≠ "" ∧
    coerceNumber trimEnv (getVal rowWS "m") = some 5 ∧
    chartData trimEnv [rowWS] (some "g") (some "m") none none = [] := by
  refine ⟨by decide, by decide, by decide, ?_⟩
  rw [chartData_eq]
  have hlatest : (chartFold trimEnv "g" "m" none none [rowWS]).latest = [] := by
    decide
  rw [hlatest]
  simp

/-- An environment parsing the two date strings of the ranking
example. -/
def envAB : JsEnv :=
  { idEnv with
    parseDate := fun s =>
      if s = "day1" then some 100 else if s = "day2" then some 200 else none }

/-- The ranking example rows: group A with value 10 on day 1 and value
20 on day 2, group B with value 5 on day 1. -/
def rowsAB : List Row :=
  [[("g", JsVal.str "A"), ("m", JsVal.num 10), ("d", JsVal.str "day1")],
   [("g", JsVal.str "A"), ("m", JsVal.num 20), ("d", JsVal.str "day2")],
   [("g", JsVal.str "B"), ("m", JsVal.num 5), ("d", JsVal.str "day1")]]

/-- Concrete instance of the amended C1 theorem on the spec's ranking
example: group A keeps its day-2 entry (200, 20), which is eligible,
attains the maximal timestamp, and is the last maximal entry; the
ranking output is the descending list A 20, B 5. -/
theorem chartData_spec_witness :
    ((200, (20 : ℚ)) ∈ eligibleEntries envAB "g" "m" (some "d") rowsAB "A" ∧
     (∀ e ∈ eligibleEntries envAB "g" "m" (some "d") rowsAB "A", e.1 ≤ 200) ∧
     ((eligibleEntries envAB "g" "m" (some "d") rowsAB "A").filter
        fun e => e.1 == 200).getLast? = some (200, 20)) ∧
    chartData envAB rowsAB (some "g") (some "m") (some "d") none =
      [ChartEntry.mk "A" 20, ChartEntry.mk "B" 5] := by
  constructor
  · exact ((chartData_spec envAB rowsAB "g" "m" (some "d") none).2.2 "A").2
      200 20 (by decide)
  · rw [chartData_eq]
    have hlatest : (chartFold envAB "g" "m" (some "d") none rowsAB).latest =
        [("A", (200, 20)), ("B", (100, 5))] := by decide
    have hnames : (chartFold envAB "g" "m" (some "d") none rowsAB).names = [] := by
      decide
    rw [hlatest, hnames]
    rw [List.map_cons, List.map_cons, List.map_nil]
    rw [List.mergeSort_of_sorted (by decide)]
    rfl

theorem chartStep_names_lookup (env : JsEnv) (gk mk1 : String)
    (dateKey : Option String) (nk : String) (st : ChartState) (r : Row)
    (g : String) :
    (chartStep env gk mk1 dateKey (some nk) st r).names.lookup g =
      (st.names.lookup g).or (nameOf env gk mk1 nk r g) := by
  unfold chartStep nameOf
  cases hrg : rowGroup env gk r with
  | none => rw [Option.or_none]
  | some g2 =>
    cases hcn : coerceNumber env (getVal r mk1) with
    | none =>
      by_cases hg : g2 = g
      · simp [hg, Option.or_none]
      · simp [hg, Option.or_none]
    | some n =>
      cases hnm : getVal r nk with
      | str nm =>
        by_cases hcond : env.trim nm ≠ "" ∧
            ¬(st.names.any fun p => p.1 == g2) = true
        · by_cases hg : g2 = g
          · subst hg
            have hnone := lookup_eq_none_of_not_any g2 st.names hcond.2
            simp only [hcond, if_true, reduceIte]
            simp [hnm, hnone, hcond.1, lookup_mapSet_self st.names g2 nm]
          · simp only [hcond, if_true, reduceIte]
            simp [hnm, hg, hcond.1, lookup_mapSet_ne st.names g2 nm g (Ne.symm hg)]
        · by_cases hg : g2 = g
          · subst hg
            simp only [hcond, if_false, reduceIte]
            rcases Decidable.not_and_iff_or_not.mp hcond with hbl | hany
            · simp [hnm, hbl]
            · have hsome : ∃ w, st.names.lookup g2 = some w :=
                lookup_any_isSome g2 st.names (Decidable.not_not.mp hany)
              obtain ⟨w, hw⟩ := hsome
              by_cases hbl : env.trim nm = ""
              · simp [hnm, hbl, hw]
              · simp only [hnm, hbl, if_false, reduceIte]
                rw [if_neg hcond]
                simp [hw]
          · simp only [hnm]
            rw [if_neg hcond]
            simp [hg]
      | num q =>
        by_cases hg : g2 = g
        · simp [hnm, hg]
        · simp [hnm, hg]
      | nonfinite =>
        by_cases hg : g2 = g
        · simp [hnm, hg]
        · simp [hnm, hg]
      | other =>
        by_cases hg : g2 = g
        · simp [hnm, hg]
        · simp [hnm, hg]

theorem chartFold_names_lookup (env : JsEnv) (gk mk1 : String)
    (dateKey : Option String) (nk : String) :
    ∀ (rows : List Row) (st : ChartState) (g : String),
    (rows.foldl (chartStep env gk mk1 dateKey (some nk)) st).names.lookup g =
      (st.names.lookup g).or (nameCandidates env gk mk1 nk rows g).head? := by
  intro rows
  induction rows with
  | nil =>
    intro st g
    show List.lookup g st.names = (List.lookup g st.names).or none
    rw [Option.or_none]
  | cons r rows ih =>
    intro st g
    rw [List.foldl_cons, ih, chartStep_names_lookup]
    unfold nameCandidates
    rw [List.filterMap_cons]
    cases hn : nameOf env gk mk1 nk r g with
    | none =>
      rw [Option.or_none]
    | some nm =>
      rw [Option.or_assoc]
      rfl

/-- Key distinctness of an association list. -/
def keyNodup {α : Type} (m : List (String × α)) : Prop :=
  (m.map Prod.fst).Nodup

theorem mapSet_keyNodup {α : Type} (m : List (String × α)) (k : String)
    (v : α) (h : keyNodup m) : keyNodup (mapSet m k v) := by
  unfold keyNodup at h
  unfold mapSet
  by_cases ha : m.any fun p => p.1 == k
  · simp only [ha, if_true, reduceIte]
    unfold keyNodup
    have hkeys : ((m.map fun p => if p.1 == k then (k, v) else p).map Prod.fst) =
        m.map Prod.fst := by
      rw [List.map_map]
      apply List.map_congr_left
      intro p _
      by_cases hp : p.1 = k
      · simp [hp]
      · simp [hp]
    rw [hkeys]
    exact h
  · simp only [ha, Bool.false_eq_true, if_false, reduceIte]
    unfold keyNodup
    rw [List.map_append]
    have hnotin : k ∉ m.map Prod.fst := by
      intro hc
      obtain ⟨p, hp, hpk⟩ := List.mem_map.mp hc
      exact ha (List.any_eq_true.mpr ⟨p, hp, by simp [hpk]⟩)
    simp [List.nodup_append, h, hnotin]

theorem chartStep_latest_cases (env : JsEnv) (gk mk1 : String)
    (dateKey nameKey : Option String) (st : ChartState) (r : Row) :
    (chartStep env gk mk1 dateKey nameKey st r).latest = st.latest ∨
    ∃ k v, (chartStep env gk mk1 dateKey nameKey st r).latest =
      mapSet st.latest k v := by
  unfold chartStep
  cases rowGroup env gk r with
  | none => exact Or.inl rfl
  | some g =>
    cases coerceNumber env (getVal r mk1) with
    | none => exact Or.inl rfl
    | some n =>
      cases hlk : st.latest.lookup g with
      | none =>
        right
        exact ⟨g, (rowRecency env dateKey r, n), by simp [hlk]⟩
      | some prev =>
        by_cases hle : prev.1 ≤ rowRecency env dateKey r
        · right
          exact ⟨g, (rowRecency env dateKey r, n), by simp [hlk, hle]⟩
        · left
          simp [hlk, hle]

theorem chartFold_latest_keyNodup (env : JsEnv) (gk mk1 : String)
    (dateKey nameKey : Option String) :
    ∀ (rows : List Row) (st : ChartState), keyNodup st.latest →
    keyNodup ((rows.foldl (chartStep env gk mk1 dateKey nameKey) st).latest) := by
  intro rows
  induction rows with
  | nil => intro st h; exact h
  | cons r rows ih =>
    intro st h
    rw [List.foldl_cons]
    apply ih
    rcases chartStep_latest_cases env gk mk1 dateKey nameKey st r with
      heq | ⟨k, v, heq⟩
    · rw [heq]; exact h
    · rw [heq]; exact mapSet_keyNodup st.latest k v h

theorem lookup_of_mem_keyNodup {α : Type} :
    ∀ (m : List (String × α)), keyNodup m → ∀ p ∈ m, m.lookup p.1 = some p.2 := by
  intro m
  induction m with
  | nil => intro _ p hp; simp at hp
  | cons q m ih =>
    intro h p hp
    obtain ⟨a, b⟩ := q
    unfold keyNodup at h
    rw [List.map_cons, List.nodup_cons] at h
    rcases List.mem_cons.mp hp with hpq | hpm
    · subst hpq
      rw [List.lookup_cons]
      simp
    · have hne : p.1 ≠ a := by
        intro hc
        exact h.1 (hc ▸ List.mem_map.mpr ⟨p, hpm, rfl⟩)
      rw [List.lookup_cons]
      have hbeq : (p.1 == a) = false := by simp [hne]
      simp only [hbeq]
      exact ih h.2 p hpm

/-- C4 (amended: a candidate display name counts only when it appears
on a row that itself passes the ranking eligibility test, and blank
names are skipped): the cached name of a group key is the first
non-blank display-name value among the group's eligible rows, and every
ranking entry's label is that cached name, falling back to the raw
group key when no candidate exists. -/
theorem chartData_labels (env : JsEnv) (rows : List Row) (gk mk1 nk : String)
    (dateKey : Option String) :
    (∀ g, (chartFold env gk mk1 dateKey (some nk) rows).names.lookup g =
      (nameCandidates env gk mk1 nk rows g).head?) ∧
    (∀ e ∈ chartData env rows (some gk) (some mk1) dateKey (some nk),
      ∃ g t,
        (chartFold env gk mk1 dateKey (some nk) rows).latest.lookup g
          = some (t, e.value) ∧
        e.label = ((nameCandidates env gk mk1 nk rows g).head?).getD g) := by
  have hnames : ∀ g,
      (chartFold env gk mk1 dateKey (some nk) rows).names.lookup g =
        (nameCandidates env gk mk1 nk rows g).head? := by
    intro g
    have h := chartFold_names_lookup env gk mk1 dateKey nk rows
      (ChartState.mk [] []) g
    rw [show List.lookup g (ChartState.mk [] []).names = none from rfl,
      Option.none_or] at h
    exact h
  refine ⟨hnames, ?_⟩
  intro e he
  rw [chartData_eq] at he
  have he2 := List.take_subset 10 _ he
  rw [List.mem_mergeSort] at he2
  obtain ⟨p, hpmem, hpe⟩ := List.mem_map.mp he2
  have hnodup : keyNodup
      ((chartFold env gk mk1 dateKey (some nk) rows).latest) := by
    apply chartFold_latest_keyNodup env gk mk1 dateKey (some nk) rows
      (ChartState.mk [] [])
    simp [keyNodup]
  have hlk := lookup_of_mem_keyNodup _ hnodup p hpmem
  refine ⟨p.1, p.2.1, ?_, ?_⟩
  · rw [← hpe]
    simp only
    rw [Prod.mk.eta]
    exact hlk
  · rw [← hpe]
    simp only
    rw [hnames p.1]

/-- Rows refuting C4 as stated: the first row of the filtered set
carries the non-empty display name Alice for group A but has a
non-coercible metric, so the code never caches it; the ranking labels
group A by its raw key instead of Alice. -/
def rowsNC : List Row :=
  [[("g", JsVal.str "A"), ("m", JsVal.str "x"), ("n", JsVal.str "Alice")],
   [("g", JsVal.str "A"), ("m", JsVal.num 5)]]

/-- C4 as stated is false: a non-empty display name found on a row of
the filtered set (with a non-coercible metric) is ignored, and the raw
group key is used as the label. -/
theorem chartData_labels_counterexample :
    getVal (rowsNC.getD 0 []) "n" = JsVal.str "Alice" ∧
    ("Alice" : String) ≠ "" ∧
    getVal (rowsNC.getD 0 []) "g" = JsVal.str "A" ∧
    coerceNumber idEnv (getVal (rowsNC.getD 0 []) "m") = none ∧
    chartData idEnv rowsNC (some "g") (some "m") none (some "n") =
      [ChartEntry.mk "A" 5] := by
  refine ⟨by decide, by decide, by decide, by decide, ?_⟩
  rw [chartData_eq]
  have hlatest : (chartFold idEnv "g" "m" none (some "n") rowsNC).latest =
      [("A", (0, 5))] := by decide
  have hnames : (chartFold idEnv "g" "m" none (some "n") rowsNC).names = [] := by
    decide
  rw [hlatest, hnames]
  rw [List.map_cons, List.map_nil, List.mergeSort_singleton]
  rfl

/-- A row set with an eligible row carrying the display name Alice for
group A. -/
def rowsN : List Row :=
  [[("g", JsVal.str "A"), ("m", JsVal.num 7), ("n", JsVal.str "Alice")]]

/-- Concrete instance of the amended C4 theorem: the cached name of
group A is Alice, and the single ranking entry is labelled Alice. -/
theorem chartData_labels_witness :
    (chartFold idEnv "g" "m" none (some "n") rowsN).names.lookup "A"
      = (nameCandidates idEnv "g" "m" "n" rowsN "A").head? ∧
    (nameCandidates idEnv "g" "m" "n" rowsN "A").head? = some "Alice" ∧
    ChartEntry.mk "Alice" 7 ∈
      chartData idEnv rowsN (some "g") (some "m") none (some "n") ∧
    (∃ g t, (chartFold idEnv "g" "m" none (some "n") rowsN).latest.lookup g
        = some (t, (ChartEntry.mk "Alice" 7).value) ∧
      (ChartEntry.mk "Alice" 7).label =
        ((nameCandidates idEnv "g" "m" "n" rowsN g).head?).getD g) := by
  have hmem : ChartEntry.mk "Alice" 7 ∈
      chartData idEnv rowsN (some "g") (some "m") none (some "n") := by
    rw [chartData_eq]
    have hlatest : (chartFold idEnv "g" "m" none (some "n") rowsN).latest =
        [("A", (0, 7))] := by decide
    have hnames : (chartFold idEnv "g" "m" none (some "n") rowsN).names =
        [("A", "Alice")] := by decide
    rw [hlatest, hnames]
    rw [List.map_cons, List.map_nil, List.mergeSort_singleton]
    decide
  refine ⟨(chartData_labels idEnv rowsN "g" "m" "n" none).1 "A", by decide,
    hmem, ?_⟩
  exact (chartData_labels idEnv rowsN "g" "m" "n" none).2
    (ChartEntry.mk "Alice" 7) hmem
